import Mathlib

/-!
Verification development for the convolution execution engine of the
wingertge/burn repository (GPU conv2d / conv_transpose2d dispatch, the
col2im scatter kernel, and the autotune key machinery).

Definitions are shallow embeddings of the Rust source:
  - crates/burn-jit/src/kernel/conv/conv2d/col2im.rs
  - crates/burn-jit/src/kernel/conv/conv2d/base.rs
  - crates/burn-jit/src/kernel/conv/conv2d/tune/conv2d.rs
  - crates/burn-jit/src/kernel/conv/conv2d/tune/transpose2d.rs
  - crates/burn-cubecl/src/kernel/index/repeat_dim.rs
Machine integers (u32 / usize on the device) are modelled as Nat; the
element type of tensors is modelled as Int (the exact-arithmetic case).
-/

/-- Scalar geometry arguments of the col2im scatter kernel, mirroring the
Rust struct Col2ImArgs in col2im.rs.  The Rust padding fields are i32 but
always hold non-negative values cast from usize, and the kernel immediately
casts them back to unsigned, so they are modelled as Nat. -/
structure Col2ImArgs where
  batch_size : ℕ
  im_channels : ℕ
  im_height : ℕ
  im_width : ℕ
  out_h : ℕ
  out_w : ℕ
  kernel_h : ℕ
  kernel_w : ℕ
  pad_h : ℕ
  pad_w : ℕ
  dilation_h : ℕ
  dilation_w : ℕ
  stride_h : ℕ
  stride_w : ℕ
deriving DecidableEq, Repr

/-- Number of elements of the output image tensor, i.e. image.len() in the
kernel: the product of the four dimensions of im_shape. -/
def Col2ImArgs.numElems (a : Col2ImArgs) : ℕ :=
  a.batch_size * a.im_channels * a.im_height * a.im_width

/-- Effective x coordinate decoded from the flat thread index, as computed
by the kernel: ABSOLUTE_POS % im_width + pad_w. -/
def Col2ImArgs.xIm (a : Col2ImArgs) (pos : ℕ) : ℕ :=
  pos % a.im_width + a.pad_w

/-- Effective y coordinate decoded from the flat thread index, as computed
by the kernel: ABSOLUTE_POS / im_width % im_height + pad_h. -/
def Col2ImArgs.yIm (a : Col2ImArgs) (pos : ℕ) : ℕ :=
  pos / a.im_width % a.im_height + a.pad_h

/-- Channel decoded from the flat thread index:
ABSOLUTE_POS / (im_width * im_height) % im_channels. -/
def Col2ImArgs.chIm (a : Col2ImArgs) (pos : ℕ) : ℕ :=
  pos / (a.im_width * a.im_height) % a.im_channels

/-- Batch decoded from the flat thread index:
ABSOLUTE_POS / (im_width * im_height * im_channels). -/
def Col2ImArgs.batchOf (a : Col2ImArgs) (pos : ℕ) : ℕ :=
  pos / (a.im_width * a.im_height * a.im_channels)

/-- Dilated kernel extent: (kernel - 1) * dilation + 1. -/
def kernelExtent (kernel dilation : ℕ) : ℕ :=
  (kernel - 1) * dilation + 1

/-- Start of the column-grid loop range for one axis, as computed by the
kernel: 0 unless the effective coordinate reaches the kernel extent, in
which case (coord - extent) / stride + 1.  The comparison guards the
unsigned subtraction exactly as the Rust code does. -/
def colStart (coord extent stride : ℕ) : ℕ :=
  if extent ≤ coord then (coord - extent) / stride + 1 else 0

/-- Exclusive end of the column-grid loop range for one axis, as computed
by the kernel: min (coord / stride + 1) bound. -/
def colEnd (coord stride bound : ℕ) : ℕ :=
  min (coord / stride + 1) bound

/-- Body of the col2im scatter kernel (col2im_kernel in col2im.rs) for one
thread, as a pure function of the flat thread index: the accumulated value
that the kernel writes to image[ABSOLUTE_POS].  The column-buffer index is
written exactly as in the source:
ch_im * kernel_h * kernel_w * col_shape_1 + kernel_y * kernel_w * col_shape_1
+ kernel_x * col_shape_1 + batch * out_h * out_w + col_y * out_w + col_x. -/
def col2imVal (columns : ℕ → ℤ) (a : Col2ImArgs) (pos : ℕ) : ℤ :=
  let x := a.xIm pos
  let y := a.yIm pos
  let ch := a.chIm pos
  let b := a.batchOf pos
  let cs1 := a.batch_size * a.out_h * a.out_w
  ∑ cy ∈ Finset.Ico (colStart y (kernelExtent a.kernel_h a.dilation_h) a.stride_h)
      (colEnd y a.stride_h a.out_h),
    ∑ cx ∈ Finset.Ico (colStart x (kernelExtent a.kernel_w a.dilation_w) a.stride_w)
        (colEnd x a.stride_w a.out_w),
      if (y - cy * a.stride_h) % a.dilation_h = 0 ∧ (x - cx * a.stride_w) % a.dilation_w = 0 then
        columns (ch * a.kernel_h * a.kernel_w * cs1
          + ((y - cy * a.stride_h) / a.dilation_h) * a.kernel_w * cs1
          + ((x - cx * a.stride_w) / a.dilation_w) * cs1
          + b * a.out_h * a.out_w
          + cy * a.out_w
          + cx)
      else 0

/-- One full thread of the col2im kernel, guard included.  The source reads
if ABSOLUTE_POS > image.len() then return, so a thread performs its work
(and writes image[ABSOLUTE_POS]) exactly when pos ≤ numElems; the result is
none when the thread returns early, and some v when it writes v. -/
def col2imWrite (columns : ℕ → ℤ) (a : Col2ImArgs) (pos : ℕ) : Option ℤ :=
  if a.numElems < pos then none else some (col2imVal columns a pos)

/-- Ceiling division of integers for a positive divisor, written through
floor division: for 0 < s, specCeilDiv m s = ⌈m / s⌉. -/
def specCeilDiv (m s : ℤ) : ℤ :=
  Int.fdiv (m + s - 1) s

lemma colStart_eq_ceil (c e s : ℕ) (hs : 1 ≤ s) :
    ((colStart c e s : ℕ) : ℤ) = max 0 (specCeilDiv ((c : ℤ) - e + 1) s) := by
  have hs' : (0 : ℤ) < s := by exact_mod_cast hs
  unfold colStart specCeilDiv
  by_cases h : e ≤ c
  · simp only [if_pos h]
    have h1 : (c : ℤ) - e + 1 + s - 1 = ((c - e + s : ℕ) : ℤ) := by
      push_cast [h]; ring
    rw [h1, ← Int.ofNat_fdiv]
    have h2 : (c - e + s) / s = (c - e) / s + 1 := Nat.add_div_right _ hs
    rw [h2]
    exact (max_eq_right (by positivity)).symm
  · simp only [if_neg h]
    have hlt : (c : ℤ) - e + 1 + s - 1 < 1 * s := by
      have hce : c < e := Nat.lt_of_not_le h
      omega
    have hfd : ((c : ℤ) - e + 1 + s - 1).fdiv s ≤ 0 := by
      rw [Int.fdiv_eq_ediv _ (le_of_lt hs')]
      have := (Int.ediv_lt_iff_lt_mul hs' (a := (c : ℤ) - e + 1 + s - 1) (b := 1)).mpr hlt
      omega
    omega

/-- C3: for every in-bounds thread of the col2im kernel, with effective
coordinates x_eff = x_im + pad_w and y_eff = y_im + pad_h as decoded by the
kernel, the iterated column-grid range for col_x is exactly the half-open
interval from max 0 ⌈(x_eff - extent_w + 1) / stride_w⌉ to
min (x_eff / stride_w + 1) out_w, where extent_w = (kernel_w - 1) * dilation_w + 1,
the lower bound being computed by the code through a guarded unsigned
subtraction and floor division; symmetrically for col_y. -/
theorem col2im_range_matches_spec (a : Col2ImArgs) (pos : ℕ)
    (hsw : 1 ≤ a.stride_w) (hsh : 1 ≤ a.stride_h) :
    (((colStart (a.xIm pos) (kernelExtent a.kernel_w a.dilation_w) a.stride_w : ℕ) : ℤ)
        = max 0 (specCeilDiv ((a.xIm pos : ℤ) - kernelExtent a.kernel_w a.dilation_w + 1)
            a.stride_w)
      ∧ colEnd (a.xIm pos) a.stride_w a.out_w = min (a.xIm pos / a.stride_w + 1) a.out_w
      ∧ a.xIm pos = pos % a.im_width + a.pad_w)
    ∧ (((colStart (a.yIm pos) (kernelExtent a.kernel_h a.dilation_h) a.stride_h : ℕ) : ℤ)
        = max 0 (specCeilDiv ((a.yIm pos : ℤ) - kernelExtent a.kernel_h a.dilation_h + 1)
            a.stride_h)
      ∧ colEnd (a.yIm pos) a.stride_h a.out_h = min (a.yIm pos / a.stride_h + 1) a.out_h
      ∧ a.yIm pos = pos / a.im_width % a.im_height + a.pad_h) := by
  refine ⟨⟨colStart_eq_ceil _ _ _ hsw, rfl, rfl⟩, ⟨colStart_eq_ceil _ _ _ hsh, rfl, rfl⟩⟩

/-- Concrete geometry used by the witnesses: a 1×1×4×4 image, 3×3 kernel,
stride 2, dilation 2, padding 1, 2×2 column grid. -/
def exampleArgs : Col2ImArgs where
  batch_size := 1
  im_channels := 1
  im_height := 4
  im_width := 4
  out_h := 2
  out_w := 2
  kernel_h := 3
  kernel_w := 3
  pad_h := 1
  pad_w := 1
  dilation_h := 2
  dilation_w := 2
  stride_h := 2
  stride_w := 2

/-- Witness for col2im_range_matches_spec at a concrete geometry and thread. -/
theorem col2im_range_matches_spec_witness :
    1 ≤ exampleArgs.stride_w ∧ 1 ≤ exampleArgs.stride_h
    ∧ (((colStart (exampleArgs.xIm 5)
          (kernelExtent exampleArgs.kernel_w exampleArgs.dilation_w) exampleArgs.stride_w : ℕ) : ℤ)
        = max 0 (specCeilDiv ((exampleArgs.xIm 5 : ℤ)
            - kernelExtent exampleArgs.kernel_w exampleArgs.dilation_w + 1) exampleArgs.stride_w))
    ∧ (((colStart (exampleArgs.yIm 5)
          (kernelExtent exampleArgs.kernel_h exampleArgs.dilation_h) exampleArgs.stride_h : ℕ) : ℤ)
        = max 0 (specCeilDiv ((exampleArgs.yIm 5 : ℤ)
            - kernelExtent exampleArgs.kernel_h exampleArgs.dilation_h + 1) exampleArgs.stride_h)) :=
  ⟨by decide, by decide,
    (col2im_range_matches_spec exampleArgs 5 (by decide) (by decide)).1.1,
    (col2im_range_matches_spec exampleArgs 5 (by decide) (by decide)).2.1⟩

/-- C2: for every in-bounds thread, the value accumulated by the col2im
kernel is the sum, over the candidate column rectangle, of exactly those
column entries whose tap offsets k_y, k_x are divisible by the dilations,
read at flat index
((channel * kernel_h + kernel_y) * kernel_w + kernel_x) * (batch_size * out_h * out_w)
+ batch * (out_h * out_w) + col_y * out_w + col_x, and that value is written
to the output position once (the write is modelled by col2imWrite returning
some of the accumulated sum). -/
theorem col2im_accumulation_spec (columns : ℕ → ℤ) (a : Col2ImArgs) (pos : ℕ)
    (hpos : pos < a.numElems) :
    col2imVal columns a pos =
      (∑ cy ∈ Finset.Ico (colStart (a.yIm pos) (kernelExtent a.kernel_h a.dilation_h) a.stride_h)
          (colEnd (a.yIm pos) a.stride_h a.out_h),
        ∑ cx ∈ Finset.Ico (colStart (a.xIm pos) (kernelExtent a.kernel_w a.dilation_w) a.stride_w)
            (colEnd (a.xIm pos) a.stride_w a.out_w),
          if (a.yIm pos - cy * a.stride_h) % a.dilation_h = 0
              ∧ (a.xIm pos - cx * a.stride_w) % a.dilation_w = 0 then
            columns (((a.chIm pos * a.kernel_h + (a.yIm pos - cy * a.stride_h) / a.dilation_h)
                  * a.kernel_w + (a.xIm pos - cx * a.stride_w) / a.dilation_w)
                * (a.batch_size * (a.out_h * a.out_w))
              + a.batchOf pos * (a.out_h * a.out_w) + cy * a.out_w + cx)
          else 0)
    ∧ col2imWrite columns a pos = some (col2imVal columns a pos) := by
  constructor
  · unfold col2imVal
    refine Finset.sum_congr rfl fun cy _ => Finset.sum_congr rfl fun cx _ => ?_
    by_cases hc : (a.yIm pos - cy * a.stride_h) % a.dilation_h = 0
        ∧ (a.xIm pos - cx * a.stride_w) % a.dilation_w = 0
    · simp only [if_pos hc]
      congr 1
      ring
    · simp only [if_neg hc]
  · unfold col2imWrite
    rw [if_neg (by omega)]

/-- Witness for col2im_accumulation_spec at a concrete geometry and thread. -/
theorem col2im_accumulation_spec_witness :
    3 < exampleArgs.numElems
    ∧ (col2imVal (fun i => (i : ℤ)) exampleArgs 3 =
        (∑ cy ∈ Finset.Ico
            (colStart (exampleArgs.yIm 3)
              (kernelExtent exampleArgs.kernel_h exampleArgs.dilation_h) exampleArgs.stride_h)
            (colEnd (exampleArgs.yIm 3) exampleArgs.stride_h exampleArgs.out_h),
          ∑ cx ∈ Finset.Ico
              (colStart (exampleArgs.xIm 3)
                (kernelExtent exampleArgs.kernel_w exampleArgs.dilation_w) exampleArgs.stride_w)
              (colEnd (exampleArgs.xIm 3) exampleArgs.stride_w exampleArgs.out_w),
            if (exampleArgs.yIm 3 - cy * exampleArgs.stride_h) % exampleArgs.dilation_h = 0
                ∧ (exampleArgs.xIm 3 - cx * exampleArgs.stride_w) % exampleArgs.dilation_w = 0 then
              (fun i => (i : ℤ)) (((exampleArgs.chIm 3 * exampleArgs.kernel_h
                    + (exampleArgs.yIm 3 - cy * exampleArgs.stride_h) / exampleArgs.dilation_h)
                    * exampleArgs.kernel_w
                    + (exampleArgs.xIm 3 - cx * exampleArgs.stride_w) / exampleArgs.dilation_w)
                  * (exampleArgs.batch_size * (exampleArgs.out_h * exampleArgs.out_w))
                + exampleArgs.batchOf 3 * (exampleArgs.out_h * exampleArgs.out_w)
                + cy * exampleArgs.out_w + cx)
            else 0)
      ∧ col2imWrite (fun i => (i : ℤ)) exampleArgs 3
          = some (col2imVal (fun i => (i : ℤ)) exampleArgs 3)) :=
  ⟨by decide, col2im_accumulation_spec (fun i => (i : ℤ)) exampleArgs 3 (by decide)⟩

/-- C4 (code bug): the guard in col2im_kernel is ABSOLUTE_POS > image.len()
rather than the intended ≥, so the thread whose flat index equals the
element count passes the guard, performs the full accumulation and writes
one element past the end of the image.  Evaluated here at the concrete
geometry exampleArgs, whose image has 16 elements: the thread with flat
index 16 performs work (col2imWrite returns some value instead of none). -/
theorem col2im_guard_off_by_one :
    exampleArgs.numElems = 16
    ∧ (col2imWrite (fun i => (i : ℤ)) exampleArgs 16).isSome = true
    ∧ (∀ pos : ℕ, col2imWrite (fun i => (i : ℤ)) exampleArgs pos = none
        ↔ exampleArgs.numElems < pos) := by
  refine ⟨rfl, by decide, fun pos => ?_⟩
  unfold col2imWrite
  by_cases h : exampleArgs.numElems < pos
  · simp [h]
  · simp [h]

/-- Set of (column position, kernel tap) pairs on one axis that cover a
given effective coordinate: pairs (c, t) with c < bound, t < k and
c * stride + t * dilation = coord. -/
def coverPairs (coord k bound s d : ℕ) : Finset (ℕ × ℕ) :=
  (Finset.range bound ×ˢ Finset.range k).filter (fun p => p.1 * s + p.2 * d = coord)

/-- Number of (column position, kernel tap) pairs covering one coordinate. -/
def coverCount (coord k bound s d : ℕ) : ℕ :=
  (coverPairs coord k bound s d).card

lemma axis_sum_reindex (coord s d k bound : ℕ) (hs : 1 ≤ s) (hd : 1 ≤ d) (hk : 1 ≤ k)
    (f : ℕ → ℕ → ℤ) :
    (∑ cy ∈ Finset.Ico (colStart coord (kernelExtent k d) s) (colEnd coord s bound),
      if (coord - cy * s) % d = 0 then f cy ((coord - cy * s) / d) else 0)
    = ∑ p ∈ coverPairs coord k bound s d, f p.1 p.2 := by
  have hs0 : 0 < s := hs
  have hd0 : 0 < d := hd
  rw [← Finset.sum_filter]
  refine Finset.sum_bij' (fun cy _ => (cy, (coord - cy * s) / d)) (fun p _ => p.1)
    ?_ ?_ ?_ ?_ ?_
  · intro cy hcy
    rw [Finset.mem_filter, Finset.mem_Ico] at hcy
    obtain ⟨⟨hlo, hhi⟩, hP⟩ := hcy
    rw [colEnd, lt_min_iff] at hhi
    have hcy_le : cy * s ≤ coord := by
      have h1 : cy ≤ coord / s := by omega
      exact (Nat.le_div_iff_mul_le hs0).mp h1
    have hsub_le : coord - cy * s ≤ (k - 1) * d := by
      rw [colStart] at hlo
      by_cases hext : kernelExtent k d ≤ coord
      · rw [if_pos hext] at hlo
        have h2 : (coord - kernelExtent k d) / s < cy := by omega
        have h3 : coord - kernelExtent k d < cy * s := (Nat.div_lt_iff_lt_mul hs0).mp h2
        rw [kernelExtent] at h3 hext
        omega
      · rw [kernelExtent] at hext
        omega
    have hky_lt : (coord - cy * s) / d < k := by
      have h4 : (coord - cy * s) / d ≤ (k - 1) * d / d := Nat.div_le_div_right hsub_le
      rw [Nat.mul_div_cancel _ hd0] at h4
      omega
    have hsum : cy * s + (coord - cy * s) / d * d = coord := by
      rw [Nat.div_mul_cancel (Nat.dvd_of_mod_eq_zero hP)]
      omega
    rw [coverPairs, Finset.mem_filter, Finset.mem_product, Finset.mem_range, Finset.mem_range]
    exact ⟨⟨hhi.2, hky_lt⟩, hsum⟩
  · intro p hp
    rw [coverPairs, Finset.mem_filter, Finset.mem_product, Finset.mem_range, Finset.mem_range]
      at hp
    obtain ⟨⟨hcyb, hkyk⟩, heq⟩ := hp
    have hA : p.1 * s ≤ coord := by omega
    have hend : p.1 < colEnd coord s bound := by
      rw [colEnd, lt_min_iff]
      have h5 : p.1 ≤ coord / s := (Nat.le_div_iff_mul_le hs0).mpr hA
      exact ⟨by omega, hcyb⟩
    have hstart : colStart coord (kernelExtent k d) s ≤ p.1 := by
      rw [colStart]
      by_cases hext : kernelExtent k d ≤ coord
      · rw [if_pos hext]
        have hkd : p.2 * d ≤ (k - 1) * d := Nat.mul_le_mul_right d (by omega)
        rw [kernelExtent] at hext
        have hlt : coord - ((k - 1) * d + 1) < p.1 * s := by omega
        have h6 : (coord - ((k - 1) * d + 1)) / s < p.1 := (Nat.div_lt_iff_lt_mul hs0).mpr hlt
        rw [kernelExtent]
        omega
      · rw [if_neg hext]
        exact Nat.zero_le _
    have hmod : (coord - p.1 * s) % d = 0 := by
      have h7 : coord - p.1 * s = p.2 * d := by omega
      rw [h7]
      exact Nat.mul_mod_left _ _
    rw [Finset.mem_filter, Finset.mem_Ico]
    exact ⟨⟨hstart, hend⟩, hmod⟩
  · intro cy hcy
    rfl
  · intro p hp
    rw [coverPairs, Finset.mem_filter, Finset.mem_product, Finset.mem_range, Finset.mem_range]
      at hp
    obtain ⟨⟨hcyb, hkyk⟩, heq⟩ := hp
    have h7 : coord - p.1 * s = p.2 * d := by omega
    have h8 : (coord - p.1 * s) / d = p.2 := by
      rw [h7]
      exact Nat.mul_div_cancel _ hd0
    exact Prod.ext rfl h8
  · intro cy hcy
    rfl

lemma decode2 (x0 x1 n1 : ℕ) (h1 : x1 < n1) :
    (x0 * n1 + x1) / n1 = x0 ∧ (x0 * n1 + x1) % n1 = x1 := by
  constructor
  · rw [mul_comm x0 n1, Nat.mul_add_div (by omega), Nat.div_eq_of_lt h1]
    omega
  · rw [mul_comm x0 n1, Nat.mul_add_mod, Nat.mod_eq_of_lt h1]

lemma encode3_lt (x0 x1 x2 n0 n1 n2 : ℕ) (h0 : x0 < n0) (h1 : x1 < n1) (h2 : x2 < n2) :
    x0 * (n1 * n2) + x1 * n2 + x2 < n0 * (n1 * n2) := by
  have e1 : x0 * (n1 * n2) + x1 * n2 + x2 < x0 * (n1 * n2) + (x1 + 1) * n2 := by
    have := Nat.add_lt_add_left h2 (x0 * (n1 * n2) + x1 * n2)
    calc x0 * (n1 * n2) + x1 * n2 + x2 < x0 * (n1 * n2) + x1 * n2 + n2 := this
      _ = x0 * (n1 * n2) + (x1 + 1) * n2 := by ring
  have e2 : (x1 + 1) * n2 ≤ n1 * n2 := Nat.mul_le_mul_right n2 (by omega)
  have e3 : x0 * (n1 * n2) + n1 * n2 = (x0 + 1) * (n1 * n2) := by ring
  have e4 : (x0 + 1) * (n1 * n2) ≤ n0 * (n1 * n2) := Nat.mul_le_mul_right _ (by omega)
  omega

/-- Modelled from the spec: the forward im2col unfold formula.  The im2col
kernel itself is not among the examined source files; the spec describes it
as unfolding the input's sliding windows into a column matrix, with column
layout matching the col2im reading layout
((channel * kernel_h + kernel_y) * kernel_w + kernel_x) rows by
(batch * out_h * out_w) columns.  Each entry is the image pixel that the
dilation-sampled kernel tap reads at that column position, the padded frame
shifted back by the padding, and zero where the window lies outside the
image. -/
def unfoldColsFlat (im : ℕ → ℕ → ℕ → ℕ → ℤ) (a : Col2ImArgs) (idx : ℕ) : ℤ :=
  let cs1 := a.batch_size * (a.out_h * a.out_w)
  let row := idx / cs1
  let col := idx % cs1
  let kx := row % a.kernel_w
  let ky := row / a.kernel_w % a.kernel_h
  let ch := row / (a.kernel_w * a.kernel_h)
  let cx := col % a.out_w
  let cy := col / a.out_w % a.out_h
  let b := col / (a.out_w * a.out_h)
  let y := cy * a.stride_h + ky * a.dilation_h
  let x := cx * a.stride_w + kx * a.dilation_w
  if a.pad_h ≤ y ∧ y - a.pad_h < a.im_height ∧ a.pad_w ≤ x ∧ x - a.pad_w < a.im_width then
    im b ch (y - a.pad_h) (x - a.pad_w)
  else 0

lemma unfoldColsFlat_encode (im : ℕ → ℕ → ℕ → ℕ → ℤ) (a : Col2ImArgs)
    (ch ky kx b cy cx : ℕ)
    (hky : ky < a.kernel_h) (hkx : kx < a.kernel_w) (hb : b < a.batch_size)
    (hcy : cy < a.out_h) (hcx : cx < a.out_w) :
    unfoldColsFlat im a
      (ch * a.kernel_h * a.kernel_w * (a.batch_size * a.out_h * a.out_w)
        + ky * a.kernel_w * (a.batch_size * a.out_h * a.out_w)
        + kx * (a.batch_size * a.out_h * a.out_w)
        + b * a.out_h * a.out_w + cy * a.out_w + cx)
    = (if a.pad_h ≤ cy * a.stride_h + ky * a.dilation_h
          ∧ cy * a.stride_h + ky * a.dilation_h - a.pad_h < a.im_height
          ∧ a.pad_w ≤ cx * a.stride_w + kx * a.dilation_w
          ∧ cx * a.stride_w + kx * a.dilation_w - a.pad_w < a.im_width then
        im b ch (cy * a.stride_h + ky * a.dilation_h - a.pad_h)
          (cx * a.stride_w + kx * a.dilation_w - a.pad_w)
      else 0) := by
  have hrw : ch * a.kernel_h * a.kernel_w * (a.batch_size * a.out_h * a.out_w)
        + ky * a.kernel_w * (a.batch_size * a.out_h * a.out_w)
        + kx * (a.batch_size * a.out_h * a.out_w)
        + b * a.out_h * a.out_w + cy * a.out_w + cx
      = ((ch * a.kernel_h + ky) * a.kernel_w + kx) * (a.batch_size * (a.out_h * a.out_w))
        + (b * (a.out_h * a.out_w) + cy * a.out_w + cx) := by ring
  have hcol_lt : b * (a.out_h * a.out_w) + cy * a.out_w + cx
      < a.batch_size * (a.out_h * a.out_w) := encode3_lt _ _ _ _ _ _ hb hcy hcx
  have htop := decode2 ((ch * a.kernel_h + ky) * a.kernel_w + kx)
    (b * (a.out_h * a.out_w) + cy * a.out_w + cx) _ hcol_lt
  have hrow := decode2 (ch * a.kernel_h + ky) kx _ hkx
  have hky2 : (ch * a.kernel_h + ky) % a.kernel_h = ky := by
    rw [mul_comm ch a.kernel_h, Nat.mul_add_mod, Nat.mod_eq_of_lt hky]
  have hch : ((ch * a.kernel_h + ky) * a.kernel_w + kx) / (a.kernel_w * a.kernel_h) = ch := by
    rw [← Nat.div_div_eq_div_mul, hrow.1, mul_comm ch a.kernel_h, Nat.mul_add_div (by omega),
      Nat.div_eq_of_lt hky]
    omega
  have hcolrw : b * (a.out_h * a.out_w) + cy * a.out_w + cx
      = (b * a.out_h + cy) * a.out_w + cx := by ring
  have hcx2 := decode2 (b * a.out_h + cy) cx _ hcx
  have hcy2 : (b * a.out_h + cy) % a.out_h = cy := by
    rw [mul_comm b a.out_h, Nat.mul_add_mod, Nat.mod_eq_of_lt hcy]
  have hb2 : ((b * a.out_h + cy) * a.out_w + cx) / (a.out_w * a.out_h) = b := by
    rw [← Nat.div_div_eq_div_mul, hcx2.1, mul_comm b a.out_h, Nat.mul_add_div (by omega),
      Nat.div_eq_of_lt hcy]
    omega
  simp only [unfoldColsFlat]
  rw [hrw, htop.1, htop.2, hcolrw, hrow.2, hrow.1, hky2, hch, hcx2.2, hcx2.1, hcy2, hb2]

lemma col2im_double_reindex (columns : ℕ → ℤ) (a : Col2ImArgs) (pos : ℕ)
    (hsh : 1 ≤ a.stride_h) (hsw : 1 ≤ a.stride_w)
    (hdh : 1 ≤ a.dilation_h) (hdw : 1 ≤ a.dilation_w)
    (hkh : 1 ≤ a.kernel_h) (hkw : 1 ≤ a.kernel_w) :
    col2imVal columns a pos
    = ∑ py ∈ coverPairs (a.yIm pos) a.kernel_h a.out_h a.stride_h a.dilation_h,
      ∑ px ∈ coverPairs (a.xIm pos) a.kernel_w a.out_w a.stride_w a.dilation_w,
        columns (a.chIm pos * a.kernel_h * a.kernel_w * (a.batch_size * a.out_h * a.out_w)
          + py.2 * a.kernel_w * (a.batch_size * a.out_h * a.out_w)
          + px.2 * (a.batch_size * a.out_h * a.out_w)
          + a.batchOf pos * a.out_h * a.out_w + py.1 * a.out_w + px.1) := by
  have step1 : col2imVal columns a pos
      = ∑ cy ∈ Finset.Ico (colStart (a.yIm pos) (kernelExtent a.kernel_h a.dilation_h) a.stride_h)
          (colEnd (a.yIm pos) a.stride_h a.out_h),
        if (a.yIm pos - cy * a.stride_h) % a.dilation_h = 0 then
          (∑ cx ∈ Finset.Ico
              (colStart (a.xIm pos) (kernelExtent a.kernel_w a.dilation_w) a.stride_w)
              (colEnd (a.xIm pos) a.stride_w a.out_w),
            if (a.xIm pos - cx * a.stride_w) % a.dilation_w = 0 then
              columns (a.chIm pos * a.kernel_h * a.kernel_w
                  * (a.batch_size * a.out_h * a.out_w)
                + ((a.yIm pos - cy * a.stride_h) / a.dilation_h) * a.kernel_w
                  * (a.batch_size * a.out_h * a.out_w)
                + ((a.xIm pos - cx * a.stride_w) / a.dilation_w)
                  * (a.batch_size * a.out_h * a.out_w)
                + a.batchOf pos * a.out_h * a.out_w + cy * a.out_w + cx)
            else 0)
        else 0 := by
    unfold col2imVal
    refine Finset.sum_congr rfl fun cy _ => ?_
    by_cases hA : (a.yIm pos - cy * a.stride_h) % a.dilation_h = 0
    · rw [if_pos hA]
      refine Finset.sum_congr rfl fun cx _ => ?_
      by_cases hB : (a.xIm pos - cx * a.stride_w) % a.dilation_w = 0
      · rw [if_pos ⟨hA, hB⟩, if_pos hB]
      · rw [if_neg fun hc => hB hc.2, if_neg hB]
    · rw [if_neg hA]
      exact Finset.sum_eq_zero fun cx _ => if_neg fun hc => hA hc.1
  calc col2imVal columns a pos
      = _ := step1
    _ = ∑ py ∈ coverPairs (a.yIm pos) a.kernel_h a.out_h a.stride_h a.dilation_h,
        (∑ cx ∈ Finset.Ico
            (colStart (a.xIm pos) (kernelExtent a.kernel_w a.dilation_w) a.stride_w)
            (colEnd (a.xIm pos) a.stride_w a.out_w),
          if (a.xIm pos - cx * a.stride_w) % a.dilation_w = 0 then
            columns (a.chIm pos * a.kernel_h * a.kernel_w
                * (a.batch_size * a.out_h * a.out_w)
              + py.2 * a.kernel_w * (a.batch_size * a.out_h * a.out_w)
              + ((a.xIm pos - cx * a.stride_w) / a.dilation_w)
                * (a.batch_size * a.out_h * a.out_w)
              + a.batchOf pos * a.out_h * a.out_w + py.1 * a.out_w + cx)
          else 0) :=
      axis_sum_reindex (a.yIm pos) a.stride_h a.dilation_h a.kernel_h a.out_h hsh hdh hkh
        (fun cy ky => ∑ cx ∈ Finset.Ico
            (colStart (a.xIm pos) (kernelExtent a.kernel_w a.dilation_w) a.stride_w)
            (colEnd (a.xIm pos) a.stride_w a.out_w),
          if (a.xIm pos - cx * a.stride_w) % a.dilation_w = 0 then
            columns (a.chIm pos * a.kernel_h * a.kernel_w
                * (a.batch_size * a.out_h * a.out_w)
              + ky * a.kernel_w * (a.batch_size * a.out_h * a.out_w)
              + ((a.xIm pos - cx * a.stride_w) / a.dilation_w)
                * (a.batch_size * a.out_h * a.out_w)
              + a.batchOf pos * a.out_h * a.out_w + cy * a.out_w + cx)
          else 0)
    _ = ∑ py ∈ coverPairs (a.yIm pos) a.kernel_h a.out_h a.stride_h a.dilation_h,
        ∑ px ∈ coverPairs (a.xIm pos) a.kernel_w a.out_w a.stride_w a.dilation_w,
          columns (a.chIm pos * a.kernel_h * a.kernel_w * (a.batch_size * a.out_h * a.out_w)
            + py.2 * a.kernel_w * (a.batch_size * a.out_h * a.out_w)
            + px.2 * (a.batch_size * a.out_h * a.out_w)
            + a.batchOf pos * a.out_h * a.out_w + py.1 * a.out_w + px.1) :=
      Finset.sum_congr rfl fun py _ =>
        axis_sum_reindex (a.xIm pos) a.stride_w a.dilation_w a.kernel_w a.out_w hsw hdw hkw
          (fun cx kx =>
            columns (a.chIm pos * a.kernel_h * a.kernel_w
                * (a.batch_size * a.out_h * a.out_w)
              + py.2 * a.kernel_w * (a.batch_size * a.out_h * a.out_w)
              + kx * (a.batch_size * a.out_h * a.out_w)
              + a.batchOf pos * a.out_h * a.out_w + py.1 * a.out_w + cx))

/-- C1, corrected form: applying the col2im scatter kernel to a columns
buffer built from an image by the forward unfold formula reconstructs, at
each in-bounds output element, the original pixel multiplied by the number
of (column position, kernel tap) pairs covering it on each axis — the
adjoint of the unfold, not its inverse.  Exact reconstruction holds exactly
where that coverage multiplicity is 1. -/
theorem col2im_unfold_coverage (im : ℕ → ℕ → ℕ → ℕ → ℤ) (a : Col2ImArgs) (pos : ℕ)
    (hpos : pos < a.numElems)
    (hsh : 1 ≤ a.stride_h) (hsw : 1 ≤ a.stride_w)
    (hdh : 1 ≤ a.dilation_h) (hdw : 1 ≤ a.dilation_w)
    (hkh : 1 ≤ a.kernel_h) (hkw : 1 ≤ a.kernel_w) :
    col2imVal (unfoldColsFlat im a) a pos
      = (coverCount (a.yIm pos) a.kernel_h a.out_h a.stride_h a.dilation_h
          * coverCount (a.xIm pos) a.kernel_w a.out_w a.stride_w a.dilation_w : ℕ)
        * im (a.batchOf pos) (a.chIm pos) (pos / a.im_width % a.im_height)
            (pos % a.im_width) := by
  have hprod : 0 < a.numElems := lt_of_le_of_lt (Nat.zero_le _) hpos
  have hW : 0 < a.im_width := by
    rcases Nat.eq_zero_or_pos a.im_width with h | h
    · rw [Col2ImArgs.numElems, h, mul_zero] at hprod
      omega
    · exact h
  have hH : 0 < a.im_height := by
    rcases Nat.eq_zero_or_pos a.im_height with h | h
    · rw [Col2ImArgs.numElems, h] at hprod
      simp at hprod
    · exact h
  have hC : 0 < a.im_channels := by
    rcases Nat.eq_zero_or_pos a.im_channels with h | h
    · rw [Col2ImArgs.numElems, h] at hprod
      simp at hprod
    · exact h
  have hb : a.batchOf pos < a.batch_size := by
    rw [Col2ImArgs.batchOf, Nat.div_lt_iff_lt_mul (mul_pos (mul_pos hW hH) hC)]
    calc pos < a.numElems := hpos
      _ = a.batch_size * (a.im_width * a.im_height * a.im_channels) := by
          rw [Col2ImArgs.numElems]; ring
  have hy0 : pos / a.im_width % a.im_height < a.im_height := Nat.mod_lt _ hH
  have hx0 : pos % a.im_width < a.im_width := Nat.mod_lt _ hW
  rw [col2im_double_reindex (unfoldColsFlat im a) a pos hsh hsw hdh hdw hkh hkw]
  have hterm : ∀ py ∈ coverPairs (a.yIm pos) a.kernel_h a.out_h a.stride_h a.dilation_h,
      ∀ px ∈ coverPairs (a.xIm pos) a.kernel_w a.out_w a.stride_w a.dilation_w,
        unfoldColsFlat im a
          (a.chIm pos * a.kernel_h * a.kernel_w * (a.batch_size * a.out_h * a.out_w)
            + py.2 * a.kernel_w * (a.batch_size * a.out_h * a.out_w)
            + px.2 * (a.batch_size * a.out_h * a.out_w)
            + a.batchOf pos * a.out_h * a.out_w + py.1 * a.out_w + px.1)
        = im (a.batchOf pos) (a.chIm pos) (pos / a.im_width % a.im_height)
            (pos % a.im_width) := by
    intro py hpy px hpx
    rw [coverPairs, Finset.mem_filter, Finset.mem_product, Finset.mem_range, Finset.mem_range]
      at hpy hpx
    obtain ⟨⟨hpy1, hpy2⟩, heqy⟩ := hpy
    obtain ⟨⟨hpx1, hpx2⟩, heqx⟩ := hpx
    rw [Col2ImArgs.yIm] at heqy
    rw [Col2ImArgs.xIm] at heqx
    rw [unfoldColsFlat_encode im a (a.chIm pos) py.2 px.2 (a.batchOf pos) py.1 px.1
      hpy2 hpx2 hb hpy1 hpx1]
    rw [if_pos (by omega)]
    rw [show py.1 * a.stride_h + py.2 * a.dilation_h - a.pad_h
        = pos / a.im_width % a.im_height from by omega,
      show px.1 * a.stride_w + px.2 * a.dilation_w - a.pad_w
        = pos % a.im_width from by omega]
  calc (∑ py ∈ coverPairs (a.yIm pos) a.kernel_h a.out_h a.stride_h a.dilation_h,
        ∑ px ∈ coverPairs (a.xIm pos) a.kernel_w a.out_w a.stride_w a.dilation_w,
          unfoldColsFlat im a
            (a.chIm pos * a.kernel_h * a.kernel_w * (a.batch_size * a.out_h * a.out_w)
              + py.2 * a.kernel_w * (a.batch_size * a.out_h * a.out_w)
              + px.2 * (a.batch_size * a.out_h * a.out_w)
              + a.batchOf pos * a.out_h * a.out_w + py.1 * a.out_w + px.1))
      = ∑ py ∈ coverPairs (a.yIm pos) a.kernel_h a.out_h a.stride_h a.dilation_h,
        ∑ _px ∈ coverPairs (a.xIm pos) a.kernel_w a.out_w a.stride_w a.dilation_w,
          im (a.batchOf pos) (a.chIm pos) (pos / a.im_width % a.im_height)
            (pos % a.im_width) :=
      Finset.sum_congr rfl fun py hpy =>
        Finset.sum_congr rfl fun px hpx => hterm py hpy px hpx
    _ = (coverCount (a.yIm pos) a.kernel_h a.out_h a.stride_h a.dilation_h
          * coverCount (a.xIm pos) a.kernel_w a.out_w a.stride_w a.dilation_w : ℕ)
        * im (a.batchOf pos) (a.chIm pos) (pos / a.im_width % a.im_height)
            (pos % a.im_width) := by
      rw [Finset.sum_const, Finset.sum_const, coverCount, coverCount, smul_smul,
        nsmul_eq_mul, Nat.cast_mul]

/-- Geometry for the counterexample to exact reconstruction: a 3×1 image,
2×1 kernel, stride 1, dilation 1, no padding, 2×1 column grid — the middle
pixel is covered by two (column, tap) pairs. -/
def counterArgs : Col2ImArgs where
  batch_size := 1
  im_channels := 1
  im_height := 3
  im_width := 1
  out_h := 2
  out_w := 1
  kernel_h := 2
  kernel_w := 1
  pad_h := 0
  pad_w := 0
  dilation_h := 1
  dilation_w := 1
  stride_h := 1
  stride_w := 1

/-- Image whose middle row holds 1 and is zero elsewhere. -/
def counterImage : ℕ → ℕ → ℕ → ℕ → ℤ :=
  fun _ _ y _ => if y = 1 then 1 else 0

/-- C1 counterexample: with the 3×1 geometry of counterArgs, the columns
buffer built from counterImage by the forward unfold formula, run through
the col2im kernel, yields 2 at the middle pixel (flat index 1) where the
original image holds 1 — col2im does not reconstruct the image exactly for
every valid geometry. -/
theorem col2im_not_exact_inverse :
    col2imVal (unfoldColsFlat counterImage counterArgs) counterArgs 1 = 2
    ∧ counterImage 0 0 1 0 = 1
    ∧ col2imVal (unfoldColsFlat counterImage counterArgs) counterArgs 1
      ≠ counterImage 0 0 1 0 := by
  refine ⟨by decide, by decide, by decide⟩

/-- Witness for col2im_unfold_coverage at the concrete counterexample
geometry: the middle pixel has coverage multiplicity 2 × 1 and the kernel
output there is the doubled pixel. -/
theorem col2im_unfold_coverage_witness :
    1 < counterArgs.numElems
    ∧ col2imVal (unfoldColsFlat counterImage counterArgs) counterArgs 1
      = (coverCount (counterArgs.yIm 1) counterArgs.kernel_h counterArgs.out_h
            counterArgs.stride_h counterArgs.dilation_h
          * coverCount (counterArgs.xIm 1) counterArgs.kernel_w counterArgs.out_w
            counterArgs.stride_w counterArgs.dilation_w : ℕ)
        * counterImage (counterArgs.batchOf 1) (counterArgs.chIm 1)
            (1 / counterArgs.im_width % counterArgs.im_height)
            (1 % counterArgs.im_width) :=
  ⟨by decide, col2im_unfold_coverage counterImage counterArgs 1 (by decide) (by decide)
    (by decide) (by decide) (by decide) (by decide) (by decide)⟩

/-- Convolution options record (burn ConvOptions with 2 spatial dims):
stride, padding, dilation, groups. -/
structure ConvOptions2 where
  stride : ℕ × ℕ
  padding : ℕ × ℕ
  dilation : ℕ × ℕ
  groups : ℕ
deriving DecidableEq, Repr

/-- Transposed-convolution options record (burn ConvTransposeOptions with 2
spatial dims): stride, padding, padding_out, dilation, groups. -/
structure ConvTransposeOptions2 where
  stride : ℕ × ℕ
  padding : ℕ × ℕ
  padding_out : ℕ × ℕ
  dilation : ℕ × ℕ
  groups : ℕ
deriving DecidableEq, Repr

/-- Strategy enum of base.rs for conv2d (the Autotune variant exists when
the autotune feature is compiled in). -/
inductive Conv2dStrategy where
  | direct
  | autotune
  | gemm
deriving DecidableEq, Repr

/-- Strategy enum of base.rs for conv_transpose2d. -/
inductive ConvTranspose2dStrategy where
  | direct
  | autotune
  | gemm
deriving DecidableEq, Repr

/-- The kernel implementation a conv2d dispatch forwards to. -/
inductive Conv2dKernelCall where
  | conv2dDirect
  | conv2dAutotune
  | conv2dIm2col
deriving DecidableEq, Repr

/-- The kernel implementation a conv_transpose2d dispatch forwards to. -/
inductive ConvTranspose2dKernelCall where
  | convTranspose2dDirect
  | convTranspose2dAutotune
  | convTranspose2dCol2im
deriving DecidableEq, Repr

/-- The conv2d dispatcher of base.rs: a match on the strategy that forwards
the call unchanged to the chosen kernel implementation.  It inspects
neither the shapes nor the options and has no error path of its own; the
Except return type records that no .error is ever produced. -/
def conv2dDispatch (strategy : Conv2dStrategy) (inputShape weightShape : List ℕ)
    (hasBias : Bool) (options : ConvOptions2) : Except String Conv2dKernelCall :=
  match strategy with
  | .direct => .ok .conv2dDirect
  | .autotune => .ok .conv2dAutotune
  | .gemm => .ok .conv2dIm2col

/-- The conv_transpose2d dispatcher of base.rs, same shape as conv2dDispatch. -/
def convTranspose2dDispatch (strategy : ConvTranspose2dStrategy)
    (inputShape weightShape : List ℕ) (hasBias : Bool)
    (options : ConvTransposeOptions2) : Except String ConvTranspose2dKernelCall :=
  match strategy with
  | .direct => .ok .convTranspose2dDirect
  | .autotune => .ok .convTranspose2dAutotune
  | .gemm => .ok .convTranspose2dCol2im

/-- Modelled from the spec: the standard transposed-convolution output size
formula, out = (in - 1) * stride - 2 * padding + dilation * (kernel - 1)
+ padding_out + 1 (calculate_conv_transpose_output_size lives in
burn-tensor, outside the examined sources).  Written over Nat with the
padding subtraction performed last.  Argument order follows the Rust
function: kernel, stride, padding, padding_out, dilation, input size. -/
def calculateConvTransposeOutputSize (kernel stride padding padding_out dilation size : ℕ) :
    ℕ :=
  (size - 1) * stride + dilation * (kernel - 1) + padding_out + 1 - 2 * padding

/-- Output shape of conv_transpose2d_col2im (col2im.rs): from weight dims
[input_channels, im_ch_per_group, kernel_h, kernel_w] and input dims
[batch_size, _, input_h, input_w], the produced image tensor has shape
[batch_size, im_ch_per_group * groups, im_h, im_w] (the shape of im_shape,
which col2im allocates and fills, and which the bias broadcast preserves). -/
def convTranspose2dCol2imShape (inputShape weightShape : List ℕ)
    (o : ConvTransposeOptions2) : List ℕ :=
  let im_ch_per_group := weightShape.getD 1 0
  let kernel_h := weightShape.getD 2 0
  let kernel_w := weightShape.getD 3 0
  let batch_size := inputShape.getD 0 0
  let input_h := inputShape.getD 2 0
  let input_w := inputShape.getD 3 0
  let im_h := calculateConvTransposeOutputSize kernel_h o.stride.1 o.padding.1
    o.padding_out.1 o.dilation.1 input_h
  let im_w := calculateConvTransposeOutputSize kernel_w o.stride.2 o.padding.2
    o.padding_out.2 o.dilation.2 input_w
  [batch_size, im_ch_per_group * o.groups, im_h, im_w]

/-- C5: conv_transpose2d with the Gemm strategy dispatches to
conv_transpose2d_col2im, whose output shape is
[batch_size, im_ch_per_group * groups, im_h, im_w] with each spatial size
satisfying out = (in - 1) * stride - 2 * padding + dilation * (kernel - 1)
+ padding_out + 1 over the integers (under the usual validity conditions
that make the formula non-negative). -/
theorem conv_transpose2d_gemm_output_shape (inputShape weightShape : List ℕ)
    (o : ConvTransposeOptions2) (hasBias : Bool)
    (hin_h : 1 ≤ inputShape.getD 2 0) (hin_w : 1 ≤ inputShape.getD 3 0)
    (hk_h : 1 ≤ weightShape.getD 2 0) (hk_w : 1 ≤ weightShape.getD 3 0)
    (hpad_h : 2 * o.padding.1 ≤ (inputShape.getD 2 0 - 1) * o.stride.1
      + o.dilation.1 * (weightShape.getD 2 0 - 1) + o.padding_out.1 + 1)
    (hpad_w : 2 * o.padding.2 ≤ (inputShape.getD 3 0 - 1) * o.stride.2
      + o.dilation.2 * (weightShape.getD 3 0 - 1) + o.padding_out.2 + 1) :
    convTranspose2dDispatch .gemm inputShape weightShape hasBias o
      = .ok .convTranspose2dCol2im
    ∧ convTranspose2dCol2imShape inputShape weightShape o
      = [inputShape.getD 0 0, weightShape.getD 1 0 * o.groups,
          calculateConvTransposeOutputSize (weightShape.getD 2 0) o.stride.1 o.padding.1
            o.padding_out.1 o.dilation.1 (inputShape.getD 2 0),
          calculateConvTransposeOutputSize (weightShape.getD 3 0) o.stride.2 o.padding.2
            o.padding_out.2 o.dilation.2 (inputShape.getD 3 0)]
    ∧ ((calculateConvTransposeOutputSize (weightShape.getD 2 0) o.stride.1 o.padding.1
          o.padding_out.1 o.dilation.1 (inputShape.getD 2 0) : ℕ) : ℤ)
      = ((inputShape.getD 2 0 : ℤ) - 1) * o.stride.1 - 2 * o.padding.1
        + o.dilation.1 * ((weightShape.getD 2 0 : ℤ) - 1) + o.padding_out.1 + 1
    ∧ ((calculateConvTransposeOutputSize (weightShape.getD 3 0) o.stride.2 o.padding.2
          o.padding_out.2 o.dilation.2 (inputShape.getD 3 0) : ℕ) : ℤ)
      = ((inputShape.getD 3 0 : ℤ) - 1) * o.stride.2 - 2 * o.padding.2
        + o.dilation.2 * ((weightShape.getD 3 0 : ℤ) - 1) + o.padding_out.2 + 1 := by
  refine ⟨rfl, rfl, ?_, ?_⟩
  · rw [calculateConvTransposeOutputSize]
    push_cast [hpad_h, hin_h, hk_h]
    ring
  · rw [calculateConvTransposeOutputSize]
    push_cast [hpad_w, hin_w, hk_w]
    ring

/-- Witness for conv_transpose2d_gemm_output_shape: a 1×4×5×5 input, 3×3
kernel with 2 output channels per group, 2 groups, stride 2, padding 1,
output padding 1, dilation 1 — output shape [1, 4, 10, 10]. -/
theorem conv_transpose2d_gemm_output_shape_witness :
    convTranspose2dCol2imShape [1, 4, 5, 5] [4, 2, 3, 3]
        ⟨(2, 2), (1, 1), (1, 1), (1, 1), 2⟩ = [1, 4, 10, 10]
    ∧ (convTranspose2dDispatch .gemm [1, 4, 5, 5] [4, 2, 3, 3] true
          ⟨(2, 2), (1, 1), (1, 1), (1, 1), 2⟩ = .ok .convTranspose2dCol2im
      ∧ ((calculateConvTransposeOutputSize 3 2 1 1 1 5 : ℕ) : ℤ)
        = ((5 : ℤ) - 1) * 2 - 2 * 1 + 1 * ((3 : ℤ) - 1) + 1 + 1) := by
  have h := conv_transpose2d_gemm_output_shape [1, 4, 5, 5] [4, 2, 3, 3]
    ⟨(2, 2), (1, 1), (1, 1), (1, 1), 2⟩ true (by decide) (by decide) (by decide) (by decide)
    (by decide) (by decide)
  exact ⟨by decide, h.1, h.2.2.1⟩

/-- C6 counterexample: a call whose channel count 4 is not divisible by the
group count 3 (an invalid configuration) is still forwarded by the
dispatcher with no error — the dispatcher of base.rs performs no shape
validation at all. -/
theorem conv_dispatch_accepts_invalid_shapes :
    (4 : ℕ) % 3 ≠ 0
    ∧ conv2dDispatch .direct [1, 4, 5, 5] [2, 1, 3, 3] false ⟨(1, 1), (0, 0), (1, 1), 3⟩
      = .ok .conv2dDirect
    ∧ convTranspose2dDispatch .gemm [1, 4, 5, 5] [2, 1, 3, 3] false
        ⟨(1, 1), (0, 0), (0, 0), (1, 1), 3⟩ = .ok .convTranspose2dCol2im := by
  refine ⟨by decide, rfl, rfl⟩

/-- C6, corrected form: the conv2d and conv_transpose2d dispatchers never
raise an error for any call, valid or invalid — they match only on the
strategy and forward everything to the selected kernel implementation, so
any shape-mismatch failure would arise downstream of the dispatcher, not
before kernel selection as the claim states. -/
theorem conv_dispatch_never_errors (s : Conv2dStrategy) (st : ConvTranspose2dStrategy)
    (inputShape weightShape : List ℕ) (hasBias : Bool) (o : ConvOptions2)
    (ot : ConvTransposeOptions2) :
    (conv2dDispatch s inputShape weightShape hasBias o).isOk = true
    ∧ (convTranspose2dDispatch st inputShape weightShape hasBias ot).isOk = true := by
  cases s <;> cases st <;> exact ⟨rfl, rfl⟩

/-- Fuel-driven helper computing the smallest power of two at least n
(1 for n ≤ 1), by halving upward; n units of fuel always suffice. -/
def nextPow2 (fuel n : ℕ) : ℕ :=
  match fuel with
  | 0 => 1
  | fuel + 1 => if n ≤ 1 then 1 else 2 * nextPow2 fuel ((n + 1) / 2)

/-- Modelled from the spec: the anchoring (bucketed rounding) applied by
the AutotuneKey derive macro to fields marked #[autotune(anchor)] (the
macro lives in cubecl, outside the examined sources; the spec describes
anchoring as power-of-two bucketed rounding).  anchor n is the smallest
power of two that is at least n, and 1 for n ≤ 1. -/
def anchor (n : ℕ) : ℕ :=
  nextPow2 n n

/-- Autotune key for conv2d (Conv2dAutotuneKey in tune/conv2d.rs): exact
kernel size, stride, padding, dilation, groups and bias flag, plus
anchored in/out channels, height, width and batch size.  Equality is
structural over all fields. -/
structure Conv2dAutotuneKey where
  kernel_size : ℕ × ℕ
  stride : ℕ × ℕ
  padding : ℕ × ℕ
  dilation : ℕ × ℕ
  groups : ℕ
  in_channels : ℕ
  out_channels : ℕ
  height : ℕ
  width : ℕ
  batch_size : ℕ
  has_bias : Bool
deriving DecidableEq, Repr

/-- Autotune key for conv_transpose2d (ConvTranspose2dAutotuneKey in
tune/transpose2d.rs): as Conv2dAutotuneKey plus the exact padding_out. -/
structure ConvTranspose2dAutotuneKey where
  kernel_size : ℕ × ℕ
  stride : ℕ × ℕ
  padding : ℕ × ℕ
  padding_out : ℕ × ℕ
  dilation : ℕ × ℕ
  groups : ℕ
  in_channels : ℕ
  out_channels : ℕ
  height : ℕ
  width : ℕ
  batch_size : ℕ
  has_bias : Bool
deriving DecidableEq, Repr

/-- create_key of tune/conv2d.rs: reads [batch_size, in_channels, height,
width] from the input shape and [out_channels, _, kernel_h, kernel_w] from
the weight shape, keeps stride/padding/dilation/groups and bias presence
exactly, and anchors the five size-like fields (the anchoring being done by
the derive-generated constructor on the #[autotune(anchor)] fields). -/
def conv2dCreateKey (inputShape weightShape : List ℕ) (hasBias : Bool)
    (o : ConvOptions2) : Conv2dAutotuneKey where
  kernel_size := (weightShape.getD 2 0, weightShape.getD 3 0)
  stride := o.stride
  padding := o.padding
  dilation := o.dilation
  groups := o.groups
  in_channels := anchor (inputShape.getD 1 0)
  out_channels := anchor (weightShape.getD 0 0)
  height := anchor (inputShape.getD 2 0)
  width := anchor (inputShape.getD 3 0)
  batch_size := anchor (inputShape.getD 0 0)
  has_bias := hasBias

/-- create_key of tune/transpose2d.rs, additionally carrying padding_out. -/
def convTranspose2dCreateKey (inputShape weightShape : List ℕ) (hasBias : Bool)
    (o : ConvTransposeOptions2) : ConvTranspose2dAutotuneKey where
  kernel_size := (weightShape.getD 2 0, weightShape.getD 3 0)
  stride := o.stride
  padding := o.padding
  padding_out := o.padding_out
  dilation := o.dilation
  groups := o.groups
  in_channels := anchor (inputShape.getD 1 0)
  out_channels := anchor (weightShape.getD 0 0)
  height := anchor (inputShape.getD 2 0)
  width := anchor (inputShape.getD 3 0)
  batch_size := anchor (inputShape.getD 0 0)
  has_bias := hasBias

/-- C7: two conv2d (resp. conv_transpose2d) calls produce equal autotune
keys exactly when they agree exactly on kernel size, stride, padding (and
padding_out for transpose), dilation, groups and bias presence, and their
batch/in-channel/out-channel/height/width values round to the same anchored
buckets; in particular calls whose anchored buckets differ never share a
key. -/
theorem conv_autotune_key_equality (i1 w1 i2 w2 : List ℕ) (b1 b2 : Bool)
    (o1 o2 : ConvOptions2) (ot1 ot2 : ConvTransposeOptions2) :
    (conv2dCreateKey i1 w1 b1 o1 = conv2dCreateKey i2 w2 b2 o2
      ↔ ((w1.getD 2 0, w1.getD 3 0) = (w2.getD 2 0, w2.getD 3 0)
        ∧ o1.stride = o2.stride ∧ o1.padding = o2.padding ∧ o1.dilation = o2.dilation
        ∧ o1.groups = o2.groups ∧ b1 = b2
        ∧ anchor (i1.getD 1 0) = anchor (i2.getD 1 0)
        ∧ anchor (w1.getD 0 0) = anchor (w2.getD 0 0)
        ∧ anchor (i1.getD 2 0) = anchor (i2.getD 2 0)
        ∧ anchor (i1.getD 3 0) = anchor (i2.getD 3 0)
        ∧ anchor (i1.getD 0 0) = anchor (i2.getD 0 0)))
    ∧ (convTranspose2dCreateKey i1 w1 b1 ot1 = convTranspose2dCreateKey i2 w2 b2 ot2
      ↔ ((w1.getD 2 0, w1.getD 3 0) = (w2.getD 2 0, w2.getD 3 0)
        ∧ ot1.stride = ot2.stride ∧ ot1.padding = ot2.padding
        ∧ ot1.padding_out = ot2.padding_out ∧ ot1.dilation = ot2.dilation
        ∧ ot1.groups = ot2.groups ∧ b1 = b2
        ∧ anchor (i1.getD 1 0) = anchor (i2.getD 1 0)
        ∧ anchor (w1.getD 0 0) = anchor (w2.getD 0 0)
        ∧ anchor (i1.getD 2 0) = anchor (i2.getD 2 0)
        ∧ anchor (i1.getD 3 0) = anchor (i2.getD 3 0)
        ∧ anchor (i1.getD 0 0) = anchor (i2.getD 0 0)))
    ∧ (anchor (i1.getD 0 0) ≠ anchor (i2.getD 0 0)
      → conv2dCreateKey i1 w1 b1 o1 ≠ conv2dCreateKey i2 w2 b2 o2) := by
  refine ⟨?_, ?_, ?_⟩
  · constructor
    · intro h
      injection h with h1 h2 h3 h4 h5 h6 h7 h8 h9 h10 h11
      exact ⟨h1, h2, h3, h4, h5, h11, h6, h7, h8, h9, h10⟩
    · rintro ⟨h1, h2, h3, h4, h5, h6, h7, h8, h9, h10, h11⟩
      rw [conv2dCreateKey, conv2dCreateKey]
      rw [Conv2dAutotuneKey.mk.injEq]
      exact ⟨h1, h2, h3, h4, h5, h7, h8, h9, h10, h11, h6⟩
  · constructor
    · intro h
      injection h with h1 h2 h3 h4 h5 h6 h7 h8 h9 h10 h11 h12
      exact ⟨h1, h2, h3, h4, h5, h6, h12, h7, h8, h9, h10, h11⟩
    · rintro ⟨h1, h2, h3, h4, h5, h6, h7, h8, h9, h10, h11, h12⟩
      rw [convTranspose2dCreateKey, convTranspose2dCreateKey]
      rw [ConvTranspose2dAutotuneKey.mk.injEq]
      exact ⟨h1, h2, h3, h4, h5, h6, h8, h9, h10, h11, h12, h7⟩
  · intro hne h
    injection h with h1 h2 h3 h4 h5 h6 h7 h8 h9 h10 h11
    exact hne h10

/-- Witness for conv_autotune_key_equality: two calls with different real
shapes (batch 8 vs 7, height 16 vs 14, width 16 vs 15) but identical
anchored buckets share one key. -/
theorem conv_autotune_key_equality_witness :
    conv2dCreateKey [8, 3, 16, 16] [4, 3, 3, 3] true ⟨(1, 1), (0, 0), (1, 1), 1⟩
      = conv2dCreateKey [7, 3, 14, 15] [4, 3, 3, 3] true ⟨(1, 1), (0, 0), (1, 1), 1⟩ :=
  (conv_autotune_key_equality [8, 3, 16, 16] [4, 3, 3, 3] [7, 3, 14, 15] [4, 3, 3, 3]
    true true ⟨(1, 1), (0, 0), (1, 1), 1⟩ ⟨(1, 1), (0, 0), (1, 1), 1⟩
    ⟨(1, 1), (0, 0), (0, 0), (1, 1), 1⟩ ⟨(1, 1), (0, 0), (0, 0), (1, 1), 1⟩).1.mpr
    (by decide)

/-- Descriptor of one call to the external random_uniform generator:
the requested shape and the uniform bounds. -/
structure RandomTensorArg where
  shape : List ℕ
  low : ℤ
  high : ℤ
deriving DecidableEq, Repr

/-- test_inputs of tune/conv2d.rs: from the key alone, request a random
input of shape [batch_size, in_channels, height, width], a random weight of
shape [out_channels, in_channels / groups, kernel_h, kernel_w], both
uniform in [-1, 1], and a bias of shape [out_channels] exactly when the key
carries has_bias. -/
def conv2dTestInputs (key : Conv2dAutotuneKey) :
    RandomTensorArg × RandomTensorArg × Option RandomTensorArg :=
  (⟨[key.batch_size, key.in_channels, key.height, key.width], -1, 1⟩,
    ⟨[key.out_channels, key.in_channels / key.groups,
        key.kernel_size.1, key.kernel_size.2], -1, 1⟩,
    if key.has_bias then some ⟨[key.out_channels], -1, 1⟩ else none)

/-- test_inputs_transpose of tune/transpose2d.rs, identical logic over the
transpose key. -/
def convTranspose2dTestInputs (key : ConvTranspose2dAutotuneKey) :
    RandomTensorArg × RandomTensorArg × Option RandomTensorArg :=
  (⟨[key.batch_size, key.in_channels, key.height, key.width], -1, 1⟩,
    ⟨[key.out_channels, key.in_channels / key.groups,
        key.kernel_size.1, key.kernel_size.2], -1, 1⟩,
    if key.has_bias then some ⟨[key.out_channels], -1, 1⟩ else none)

/-- C8: for every autotune key, the synthetic benchmark inputs are fully
determined by the key: input shaped [batch_size, in_channels, height,
width], weight shaped [out_channels, in_channels / groups, kernel_h,
kernel_w], every tensor drawn uniformly from [-1, 1], and a bias shaped
[out_channels] generated exactly when the key's has_bias flag is set; the
same holds for the transpose key. -/
theorem conv_autotune_test_inputs_spec (key : Conv2dAutotuneKey)
    (tkey : ConvTranspose2dAutotuneKey) :
    ((conv2dTestInputs key).1
        = ⟨[key.batch_size, key.in_channels, key.height, key.width], -1, 1⟩
      ∧ (conv2dTestInputs key).2.1
        = ⟨[key.out_channels, key.in_channels / key.groups,
            key.kernel_size.1, key.kernel_size.2], -1, 1⟩
      ∧ (key.has_bias = true
          → (conv2dTestInputs key).2.2 = some ⟨[key.out_channels], -1, 1⟩)
      ∧ (key.has_bias = false → (conv2dTestInputs key).2.2 = none))
    ∧ ((convTranspose2dTestInputs tkey).1
        = ⟨[tkey.batch_size, tkey.in_channels, tkey.height, tkey.width], -1, 1⟩
      ∧ (convTranspose2dTestInputs tkey).2.1
        = ⟨[tkey.out_channels, tkey.in_channels / tkey.groups,
            tkey.kernel_size.1, tkey.kernel_size.2], -1, 1⟩
      ∧ (tkey.has_bias = true
          → (convTranspose2dTestInputs tkey).2.2 = some ⟨[tkey.out_channels], -1, 1⟩)
      ∧ (tkey.has_bias = false → (convTranspose2dTestInputs tkey).2.2 = none)) := by
  refine ⟨⟨rfl, rfl, fun h => ?_, fun h => ?_⟩, rfl, rfl, fun h => ?_, fun h => ?_⟩
  · rw [conv2dTestInputs]
    simp [h]
  · rw [conv2dTestInputs]
    simp [h]
  · rw [convTranspose2dTestInputs]
    simp [h]
  · rw [convTranspose2dTestInputs]
    simp [h]

/-- Witness for conv_autotune_test_inputs_spec at a concrete key with bias
and a concrete transpose key without bias. -/
theorem conv_autotune_test_inputs_spec_witness :
    (conv2dTestInputs ⟨(3, 3), (1, 1), (0, 0), (1, 1), 1, 4, 8, 16, 16, 2, true⟩).2.2
      = some ⟨[8], -1, 1⟩
    ∧ (convTranspose2dTestInputs
        ⟨(3, 3), (1, 1), (0, 0), (0, 0), (1, 1), 1, 4, 8, 16, 16, 2, false⟩).2.2
      = none :=
  ⟨(conv_autotune_test_inputs_spec
      ⟨(3, 3), (1, 1), (0, 0), (1, 1), 1, 4, 8, 16, 16, 2, true⟩
      ⟨(3, 3), (1, 1), (0, 0), (0, 0), (1, 1), 1, 4, 8, 16, 16, 2, false⟩).1.2.2.1 rfl,
    (conv_autotune_test_inputs_spec
      ⟨(3, 3), (1, 1), (0, 0), (1, 1), 1, 4, 8, 16, 16, 2, true⟩
      ⟨(3, 3), (1, 1), (0, 0), (0, 0), (1, 1), 1, 4, 8, 16, 16, 2, false⟩).2.2.2.2 rfl⟩

/-- Matrix product of an m×k by a k×n tensor viewed as index functions:
entry (i, j) is the dot product over the shared dimension k. -/
def matmulF (A : ℕ → ℕ → ℤ) (B : ℕ → ℕ → ℤ) (k : ℕ) : ℕ → ℕ → ℤ :=
  fun i j => ∑ t ∈ Finset.range k, A i t * B t j

/-- The bias broadcast of conv_transpose2d_col2im (col2im.rs): a ones
row-vector of length batch_size * im_h * im_w is materialized, the bias is
reshaped to [im_channels, 1] and multiplied against it, the product is
reshaped to [im_channels, batch_size, im_h, im_w] (row-major), and
dimensions 0 and 1 are swapped, yielding the [batch, channel, y, x] tensor
that is elementwise-added to the col2im image. -/
def biasBroadcast (bias : ℕ → ℤ) (batch_size im_h im_w : ℕ) : ℕ → ℕ → ℕ → ℕ → ℤ :=
  let ones : ℕ → ℕ → ℤ := fun _ _ => 1
  let biasCol : ℕ → ℕ → ℤ := fun c _ => bias c
  let mat := matmulF biasCol ones 1
  let four : ℕ → ℕ → ℕ → ℕ → ℤ := fun c b y x => mat c (b * (im_h * im_w) + y * im_w + x)
  fun b c y x => four c b y x

/-- Final stage of conv_transpose2d_col2im: when a bias is present the
broadcast tensor is added to the col2im image, otherwise the image is
returned unchanged. -/
def addBiasStage (image : ℕ → ℕ → ℕ → ℕ → ℤ) (bias : Option (ℕ → ℤ))
    (batch_size im_h im_w : ℕ) : ℕ → ℕ → ℕ → ℕ → ℤ :=
  match bias with
  | some bias => fun b c y x => image b c y x + biasBroadcast bias batch_size im_h im_w b c y x
  | none => image

/-- C9: the matmul-based outer-product broadcast used by
conv_transpose2d_col2im adds exactly bias[c] to every element of channel c
(equal to the naive per-channel broadcast addition), and with no bias the
col2im image is returned unchanged. -/
theorem conv_transpose2d_bias_broadcast_spec (image : ℕ → ℕ → ℕ → ℕ → ℤ)
    (bias : ℕ → ℤ) (batch_size im_h im_w : ℕ) :
    (∀ b c y x, addBiasStage image (some bias) batch_size im_h im_w b c y x
      = image b c y x + bias c)
    ∧ addBiasStage image none batch_size im_h im_w = image := by
  constructor
  · intro b c y x
    show image b c y x + (∑ t ∈ Finset.range 1, bias c * 1) = image b c y x + bias c
    rw [Finset.sum_range_one, mul_one]
  · rfl

/-- Stride of a contiguous row-major tensor along dimension i: the product
of the sizes of all later dimensions. -/
def contiguousStride (shape : List ℕ) (i : ℕ) : ℕ :=
  (shape.drop (i + 1)).prod

/-- Row-major flat index of a coordinate list in a shape. -/
def flatIdx : List ℕ → List ℕ → ℕ
  | s :: sh, c :: cs => c * sh.prod + flatIdx sh cs
  | _, _ => 0

/-- A coordinate list is valid for a shape when it has the same rank and
every coordinate is below the corresponding size. -/
def ValidCoords (shape coords : List ℕ) : Prop :=
  coords.length = shape.length ∧ ∀ i, i < shape.length → coords.getD i 0 < shape.getD i 0

instance (shape coords : List ℕ) : Decidable (ValidCoords shape coords) :=
  decidable_of_iff
    (coords.length = shape.length
      ∧ ∀ i, i < shape.length → coords.getD i 0 < shape.getD i 0) Iff.rfl

lemma validCoords_tail (s0 : ℕ) (sh : List ℕ) (c0 : ℕ) (cs : List ℕ)
    (h : ValidCoords (s0 :: sh) (c0 :: cs)) : ValidCoords sh cs := by
  refine ⟨by simpa using h.1, fun i hi => ?_⟩
  have := h.2 (i + 1) (by simpa using Nat.succ_lt_succ hi)
  simpa using this

lemma validCoords_head (s0 : ℕ) (sh : List ℕ) (c0 : ℕ) (cs : List ℕ)
    (h : ValidCoords (s0 :: sh) (c0 :: cs)) : c0 < s0 := by
  have := h.2 0 (by simp)
  simpa using this

lemma flatIdx_lt (s : List ℕ) (c : List ℕ) (h : ValidCoords s c) : flatIdx s c < s.prod := by
  induction s generalizing c with
  | nil =>
    cases c with
    | nil => simp [flatIdx]
    | cons c0 cs => exact absurd h.1 (by simp)
  | cons s0 sh ih =>
    cases c with
    | nil => exact absurd h.1 (by simp)
    | cons c0 cs =>
      have h1 := validCoords_head s0 sh c0 cs h
      have h3 := ih cs (validCoords_tail s0 sh c0 cs h)
      show c0 * sh.prod + flatIdx sh cs < (s0 :: sh).prod
      rw [List.prod_cons]
      have h4 : (c0 + 1) * sh.prod ≤ s0 * sh.prod := Nat.mul_le_mul_right _ (by omega)
      have h5 : (c0 + 1) * sh.prod = c0 * sh.prod + sh.prod := by ring
      omega

lemma validCoords_pos (s : List ℕ) (c : List ℕ) (h : ValidCoords s c) :
    ∀ x ∈ s, 0 < x := by
  intro x hx
  obtain ⟨i, hi, rfl⟩ := List.mem_iff_getElem.mp hx
  have h2 := h.2 i hi
  rw [List.getD_eq_getElem _ _ hi] at h2
  omega

lemma stride_pos (s : List ℕ) (c : List ℕ) (i : ℕ) (h : ValidCoords s c) :
    0 < contiguousStride s i := by
  rw [contiguousStride]
  exact List.prod_pos fun x hx => validCoords_pos s c h x (List.mem_of_mem_drop hx)

lemma flatIdx_div_stride_mod (i : ℕ) (s : List ℕ) (c : List ℕ) (h : ValidCoords s c)
    (hi : i < s.length) (d : ℕ) (hd : d ∣ s.getD i 0) :
    flatIdx s c / contiguousStride s i % d = c.getD i 0 % d := by
  induction i generalizing s c with
  | zero =>
    cases s with
    | nil => exact absurd hi (by simp)
    | cons s0 sh =>
      cases c with
      | nil => exact absurd h.1 (by simp)
      | cons c0 cs =>
        have hlt := flatIdx_lt sh cs (validCoords_tail s0 sh c0 cs h)
        show (c0 * sh.prod + flatIdx sh cs) / contiguousStride (s0 :: sh) 0 % d
          = (c0 :: cs).getD 0 0 % d
        have hstr : contiguousStride (s0 :: sh) 0 = sh.prod := by
          rw [contiguousStride]
          simp
        rw [hstr]
        have hP : 0 < sh.prod := lt_of_le_of_lt (Nat.zero_le _) hlt
        have hdiv : (c0 * sh.prod + flatIdx sh cs) / sh.prod = c0 := by
          rw [add_comm, Nat.add_mul_div_right _ _ hP, Nat.div_eq_of_lt hlt]
          omega
        rw [hdiv]
        simp
  | succ i ih =>
    cases s with
    | nil => exact absurd hi (by simp)
    | cons s0 sh =>
      cases c with
      | nil => exact absurd h.1 (by simp)
      | cons c0 cs =>
        have hi' : i < sh.length := by simpa using hi
        have hvt := validCoords_tail s0 sh c0 cs h
        have hstr : contiguousStride (s0 :: sh) (i + 1) = contiguousStride sh i := by
          rw [contiguousStride, contiguousStride]
          rfl
        have hSt : 0 < contiguousStride sh i := stride_pos sh cs i hvt
        have hsplit : (sh.take (i + 1)).prod * contiguousStride sh i = sh.prod := by
          rw [contiguousStride]
          exact List.prod_take_mul_prod_drop sh (i + 1)
        have hdvdT : d ∣ (sh.take (i + 1)).prod := by
          refine dvd_trans hd ?_
          have hmem : sh.getD i 0 ∈ sh.take (i + 1) := by
            have hlen : i < (sh.take (i + 1)).length := by
              simpa using Nat.lt_min.mpr ⟨Nat.lt_succ_self i, hi'⟩
            have hget : (sh.take (i + 1))[i] = sh[i] := List.getElem_take _
            rw [List.getD_eq_getElem _ _ hi', ← hget]
            exact List.getElem_mem hlen
          exact List.dvd_prod hmem
        show (c0 * sh.prod + flatIdx sh cs) / contiguousStride (s0 :: sh) (i + 1) % d
          = (c0 :: cs).getD (i + 1) 0 % d
        rw [hstr]
        have hrw2 : c0 * sh.prod + flatIdx sh cs
            = flatIdx sh cs + c0 * (sh.take (i + 1)).prod * contiguousStride sh i := by
          rw [mul_assoc, hsplit]
          ring
        rw [hrw2, Nat.add_mul_div_right _ _ hSt]
        obtain ⟨q, hq⟩ := hdvdT
        have hform : c0 * (sh.take (i + 1)).prod = d * (c0 * q) := by
          rw [hq]
          ring
        rw [hform, Nat.add_mul_mod_self_left]
        exact ih sh cs hvt hi' hd

lemma flatIdx_eq_sum (s : List ℕ) (c : List ℕ) (hlen : c.length = s.length) :
    flatIdx s c = ∑ i ∈ Finset.range s.length, c.getD i 0 * contiguousStride s i := by
  induction s generalizing c with
  | nil =>
    cases c with
    | nil => simp [flatIdx]
    | cons c0 cs => exact absurd hlen (by simp)
  | cons s0 sh ih =>
    cases c with
    | nil => exact absurd hlen (by simp)
    | cons c0 cs =>
      have hlen2 : cs.length = sh.length := by simpa using hlen
      show c0 * sh.prod + flatIdx sh cs
        = ∑ i ∈ Finset.range (sh.length + 1), (c0 :: cs).getD i 0 * contiguousStride (s0 :: sh) i
      rw [Finset.sum_range_succ']
      have h0 : (c0 :: cs).getD 0 0 * contiguousStride (s0 :: sh) 0 = c0 * sh.prod := by
        rw [contiguousStride]
        simp
      have hsucc : ∀ i ∈ Finset.range sh.length,
          (c0 :: cs).getD (i + 1) 0 * contiguousStride (s0 :: sh) (i + 1)
            = cs.getD i 0 * contiguousStride sh i := by
        intro i _
        rw [contiguousStride, contiguousStride]
        rfl
      rw [h0, Finset.sum_congr rfl hsucc, ← ih cs hlen2]
      omega

lemma getD_set_eq_ite (l : List ℕ) (dim i v : ℕ) (hdim : dim < l.length) :
    (l.set dim v).getD i 0 = if i = dim then v else l.getD i 0 := by
  by_cases h : i = dim
  · subst h
    rw [if_pos rfl, List.getD_eq_getElem _ _ (by simpa using hdim)]
    exact List.getElem_set_self _
  · rw [if_neg h]
    by_cases hi : i < l.length
    · rw [List.getD_eq_getElem _ _ (by simpa using hi), List.getD_eq_getElem _ _ hi]
      exact List.getElem_set_ne (fun hdi => h hdi.symm) _
    · rw [List.getD_eq_default _ _ (by simpa using Nat.le_of_not_lt hi),
        List.getD_eq_default _ _ (Nat.le_of_not_lt hi)]

/-- Output shape of repeat_dim (repeat_dim.rs): the input shape with the
size along dim multiplied by times. -/
def repeatDimShape (inShape : List ℕ) (dim times : ℕ) : List ℕ :=
  inShape.set dim (inShape.getD dim 0 * times)

/-- Input offset computed by repeat_dim_kernel for one output thread: for
every dimension i, decode the output coordinate as
ABSOLUTE_POS / output.stride(i) % shape(i) — using the input's size along
dim and the output's size elsewhere, exactly as the kernel's select does —
and re-encode against the input strides. -/
def repeatDimOffset (inShape outShape : List ℕ) (dim pos : ℕ) : ℕ :=
  ∑ i ∈ Finset.range inShape.length,
    pos / contiguousStride outShape i
      % (if i ≠ dim then outShape.getD i 0 else inShape.getD i 0)
      * contiguousStride inShape i

/-- One full thread of repeat_dim_kernel, guard included: the kernel
terminates with no write when ABSOLUTE_POS ≥ output.len(), and otherwise
writes input[offset] to output[ABSOLUTE_POS]. -/
def repeatDimWrite (input : ℕ → ℤ) (inShape : List ℕ) (dim times pos : ℕ) : Option ℤ :=
  if (repeatDimShape inShape dim times).prod ≤ pos then none
  else some (input (repeatDimOffset inShape (repeatDimShape inShape dim times) dim pos))

/-- C10: repeat_dim produces a tensor whose shape is the input shape with
dimension dim multiplied by times, every output element at valid
coordinates equals the input element at the same coordinates with the dim
coordinate reduced modulo the input size along dim, and threads whose flat
index is at least the output element count write nothing. -/
theorem repeat_dim_correct (inShape : List ℕ) (dim times : ℕ) (input : ℕ → ℤ)
    (coords : List ℕ) (hdim : dim < inShape.length) (ht : 1 ≤ times)
    (hc : ValidCoords (repeatDimShape inShape dim times) coords) :
    (repeatDimShape inShape dim times).length = inShape.length
    ∧ (∀ i, i < inShape.length →
        (repeatDimShape inShape dim times).getD i 0
          = if i = dim then inShape.getD dim 0 * times else inShape.getD i 0)
    ∧ repeatDimWrite input inShape dim times (flatIdx (repeatDimShape inShape dim times) coords)
      = some (input (flatIdx inShape
          (coords.set dim (coords.getD dim 0 % inShape.getD dim 0))))
    ∧ (∀ pos, (repeatDimShape inShape dim times).prod ≤ pos
        → repeatDimWrite input inShape dim times pos = none) := by
  have hlenout : (repeatDimShape inShape dim times).length = inShape.length :=
    List.length_set inShape dim _
  have hshape : ∀ i, i < inShape.length →
      (repeatDimShape inShape dim times).getD i 0
        = if i = dim then inShape.getD dim 0 * times else inShape.getD i 0 := by
    intro i _
    rw [repeatDimShape, getD_set_eq_ite inShape dim i _ hdim]
  refine ⟨hlenout, hshape, ?_, ?_⟩
  · have hpos_lt : flatIdx (repeatDimShape inShape dim times) coords
        < (repeatDimShape inShape dim times).prod :=
      flatIdx_lt _ _ hc
    rw [repeatDimWrite, if_neg (by omega)]
    congr 1
    have hclen : coords.length = inShape.length := hc.1.trans hlenout
    have hoff : repeatDimOffset inShape (repeatDimShape inShape dim times) dim
        (flatIdx (repeatDimShape inShape dim times) coords)
        = ∑ i ∈ Finset.range inShape.length,
          (coords.set dim (coords.getD dim 0 % inShape.getD dim 0)).getD i 0
            * contiguousStride inShape i := by
      rw [repeatDimOffset]
      refine Finset.sum_congr rfl fun i hi => ?_
      rw [Finset.mem_range] at hi
      have hcdim : dim < coords.length := by omega
      by_cases h : i = dim
      · rw [if_neg (by simp [h]), h]
        have hdvd : inShape.getD dim 0 ∣ (repeatDimShape inShape dim times).getD dim 0 := by
          rw [hshape dim hdim, if_pos rfl]
          exact dvd_mul_right _ _
        rw [flatIdx_div_stride_mod dim (repeatDimShape inShape dim times) coords hc
          (by omega) _ hdvd]
        rw [getD_set_eq_ite coords dim dim _ (by omega), if_pos rfl]
      · rw [if_pos h]
        rw [flatIdx_div_stride_mod i (repeatDimShape inShape dim times) coords hc
          (by omega) _ dvd_rfl]
        rw [Nat.mod_eq_of_lt (hc.2 i (by omega)),
          getD_set_eq_ite coords dim i _ hcdim, if_neg h]
    rw [hoff, ← flatIdx_eq_sum inShape _ (by simpa using hclen)]
  · intro pos hpos
    rw [repeatDimWrite, if_pos hpos]

/-- Witness for repeat_dim_correct: input shape [2, 3] repeated 2 times
along dimension 1 yields shape [2, 6]; the output element at coordinates
[1, 4] (flat index 10) reads the input element at [1, 1] (flat index 4),
and the thread at flat index 12 writes nothing. -/
theorem repeat_dim_correct_witness :
    1 < [2, 3].length ∧ 1 ≤ 2
    ∧ ValidCoords (repeatDimShape [2, 3] 1 2) [1, 4]
    ∧ repeatDimWrite (fun n => (n : ℤ)) [2, 3] 1 2
        (flatIdx (repeatDimShape [2, 3] 1 2) [1, 4])
      = some ((fun n => (n : ℤ))
          (flatIdx [2, 3] ([1, 4].set 1 ([1, 4].getD 1 0 % [2, 3].getD 1 0))))
    ∧ (∀ pos, (repeatDimShape [2, 3] 1 2).prod ≤ pos
        → repeatDimWrite (fun n => (n : ℤ)) [2, 3] 1 2 pos = none) :=
  ⟨by decide, by decide, by decide,
    (repeat_dim_correct [2, 3] 1 2 (fun n => (n : ℤ)) [1, 4] (by decide) (by decide)
      (by decide)).2.2.1,
    (repeat_dim_correct [2, 3] 1 2 (fun n => (n : ℤ)) [1, 4] (by decide) (by decide)
      (by decide)).2.2.2⟩
